import Mathlib

/-!
Verification of the Movie Rating Analyzer (`MovieRatingAnalyser.py`).

The Python program is embedded shallowly:

* `Movie` mirrors the `Movie` dataclass; Python `float` ratings are modelled
  as rationals (`ℚ`), Python `int` years as `ℤ`.
* `mkMovie` mirrors `Movie.__post_init__`: construction either returns a
  valid record or fails with the validation message.
* `parseLine` mirrors `MovieAnalyzer._parse_and_add_movie` (field split,
  numeric parse, record construction); `parseIntChars?` and `parseRatChars?`
  model Python `int()` / `float()` on ordinary decimal literals.
* String primitives (`strTrim`, `skippable`, splitting) are defined by
  structural recursion over the character list of a string, matching the
  behaviour of Python `str.strip`, `str.startswith`, `str.split` on the
  inputs the program handles.
* `loadAux` / `loadMovies` mirror the line loop of `MovieAnalyzer.load_movies`
  over an in-memory list of lines; a `Source` is either inaccessible up
  front, fully readable, or readable up to a mid-read failure — in the last
  case the records parsed before the failure stay collected while the load
  returns failure, exactly as the `except` clauses around the loop behave.
* The aggregation and rendering helpers mirror `analyze_movies` and the
  `_display_*` methods; Python `repr(float)` and `%.2f` formatting are
  abstracted as explicit formatter parameters, since the report structure
  never depends on them.
-/

deriving instance DecidableEq for Except

/-- Configuration constant `MAX_MOVIES` from the Python source. -/
def MAX_MOVIES : Nat := 300

/-- Configuration constant `MIN_RATING` (the Python literal `0.0`). -/
def MIN_RATING : ℚ := 0

/-- Configuration constant `MAX_RATING` (the Python literal `10.0`). -/
def MAX_RATING : ℚ := 10

/-- Python `str.strip` on the character list: drop whitespace from both
ends. -/
def trimChars (cs : List Char) : List Char :=
  ((cs.dropWhile Char.isWhitespace).reverse.dropWhile Char.isWhitespace).reverse

/-- Python `str.strip` as a string-to-string function. -/
def strTrim (s : String) : String :=
  (trimChars s.data).asString

/-- The `Movie` dataclass: title, director, release year, rating. -/
structure Movie where
  title : String
  director : String
  year : ℤ
  rating : ℚ
deriving DecidableEq, Repr

/-- The validity predicate enforced by `Movie.__post_init__`. -/
def validMovie (m : Movie) : Prop :=
  1800 ≤ m.year ∧ m.year ≤ 2030 ∧
  MIN_RATING ≤ m.rating ∧ m.rating ≤ MAX_RATING ∧
  strTrim m.title ≠ "" ∧ strTrim m.director ≠ ""

instance (m : Movie) : Decidable (validMovie m) := by
  unfold validMovie; infer_instance

/-- `Movie.__post_init__`: validating construction.  Checks are performed in
the source order (year, rating, title, director) and the first failing check
determines the reported message.  (The error strings drop the quote
characters of the Python messages but keep their wording.) -/
def mkMovie (title director : String) (year : ℤ) (rating : ℚ) :
    Except String Movie :=
  if year < 1800 ∨ year > 2030 then
    Except.error ("Invalid year: " ++ toString year ++ ". Must be between 1800-2030.")
  else if ¬ (MIN_RATING ≤ rating ∧ rating ≤ MAX_RATING) then
    Except.error ("Invalid rating: " ++ toString rating ++ ". Must be between 0.0-10.0.")
  else if strTrim title = "" then
    Except.error "Movie title cannot be empty."
  else if strTrim director = "" then
    Except.error "Director name cannot be empty."
  else
    Except.ok ⟨title, director, year, rating⟩

/-- The numeric decade start `(year // 10) * 10` of `Movie.get_decade`;
`Int.fdiv` is Python floor division. -/
def yearDecade (y : ℤ) : ℤ :=
  y.fdiv 10 * 10

/-- `Movie.get_decade`: the decade start rendered with an `s` suffix. -/
def getDecade (m : Movie) : String :=
  toString (yearDecade m.year) ++ "s"

/-- Value of a list of decimal digit characters (unchecked accumulator used
by the numeric parsers). -/
def digitsValD (cs : List Char) : Nat :=
  cs.foldl (fun acc c => acc * 10 + (c.toNat - 48)) 0

/-- Parse a non-empty all-digit character list. -/
def digitsVal? (cs : List Char) : Option Nat :=
  if cs ≠ [] ∧ cs.all Char.isDigit then some (digitsValD cs) else none

/-- Models Python `int()` on an already-stripped string: optional sign
followed by decimal digits. -/
def parseIntChars? (cs : List Char) : Option ℤ :=
  match cs with
  | '-' :: r => (digitsVal? r).map (fun v => -(v : ℤ))
  | '+' :: r => (digitsVal? r).map (fun v => (v : ℤ))
  | r => (digitsVal? r).map (fun v => (v : ℤ))

/-- Models Python `float()` on an already-stripped plain decimal literal:
optional sign, integer part, optional fractional part, at least one digit
overall.  Exponent notation and the special values are not modelled; no
claim depends on them. -/
def parseRatChars? (cs : List Char) : Option ℚ :=
  let body : Bool × List Char :=
    match cs with
    | '-' :: r => (true, r)
    | '+' :: r => (false, r)
    | r => (false, r)
  let signed : ℚ → ℚ := fun q => if body.1 then -q else q
  match (body.2).splitOn '.' with
  | [ip] => (digitsVal? ip).map (fun v => signed (v : ℚ))
  | [ip, fp] =>
      if (ip ≠ [] ∨ fp ≠ []) ∧ ip.all Char.isDigit ∧ fp.all Char.isDigit then
        some (signed ((digitsValD ip : ℚ) + (digitsValD fp : ℚ) / (10 : ℚ) ^ fp.length))
      else none
  | _ => none

/-- `MovieAnalyzer._parse_and_add_movie`, restricted to producing the parsed
record: split the (already stripped) line on `|`, require exactly 4 fields,
strip each, parse the numeric fields, then construct the record. -/
def parseLine (line : String) : Except String Movie :=
  match line.data.splitOn '|' with
  | [t0, d0, y0, r0] =>
      match parseIntChars? (trimChars y0), parseRatChars? (trimChars r0) with
      | some y, some r => mkMovie (trimChars t0).asString (trimChars d0).asString y r
      | _, _ => Except.error "Invalid numeric data"
  | parts =>
      Except.error ("Expected 4 fields separated by |, got " ++ toString parts.length)

/-- A line is skipped by the loader when, after stripping, it is empty or
starts with `#`. -/
def skippable (line : String) : Bool :=
  match trimChars line.data with
  | [] => true
  | c :: _ => c == '#'

/-- Session state of `MovieAnalyzer`: the collected records, the two
counters from `__init__`, plus the per-line warnings the loader emits
(line number and reason) and whether the capacity warning was printed. -/
structure LoadState where
  movies : List Movie
  totalProcessed : Nat
  invalid : Nat
  warnings : List (Nat × String)
  capWarning : Bool
deriving DecidableEq, Repr

/-- `MovieAnalyzer.__init__`: empty collection, zero counters. -/
def initState : LoadState :=
  ⟨[], 0, 0, [], false⟩

/-- The line loop of `MovieAnalyzer.load_movies`: strip, skip blanks and
comments, count the attempt, parse (an error increments the rejected counter,
records a warning, and continues), append on success, and stop with the
capacity warning once the collection reaches `MAX_MOVIES`. -/
def loadAux : List String → Nat → LoadState → LoadState
  | [], _, s => s
  | line :: rest, n, s =>
      if skippable line then loadAux rest (n + 1) s
      else
        let s1 : LoadState := { s with totalProcessed := s.totalProcessed + 1 }
        match parseLine (strTrim line) with
        | Except.error msg =>
            loadAux rest (n + 1)
              { s1 with invalid := s1.invalid + 1, warnings := s1.warnings ++ [(n, msg)] }
        | Except.ok m =>
            let s2 : LoadState := { s1 with movies := s1.movies ++ [m] }
            if MAX_MOVIES ≤ s2.movies.length then { s2 with capWarning := true }
            else loadAux rest (n + 1) s2

/-- The four source-access failures of `load_movies`.  The first three are
detected before any line is read (the `exists` / `is_file` checks and the
`PermissionError` raised at `open`); `undecodable` — like any unexpected
read error the final `except Exception` catches — surfaces while iterating
the file, after some lines may already have been yielded and processed. -/
inductive AccessFailure where
  | notFound
  | notAFile
  | permissionDenied
  | undecodable
deriving DecidableEq, Repr

/-- A load source as `load_movies` can observe it: inaccessible before any
line is read; fully readable as a list of lines; or readable up to some
point and then failing mid-read (the listed lines are those the file
iterator yielded before the exception was raised). -/
inductive Source where
  | inaccessible : AccessFailure → Source
  | readable : List String → Source
  | truncated : List String → AccessFailure → Source
deriving DecidableEq, Repr

/-- `MovieAnalyzer.load_movies` on a fresh session.  An up-front access
failure returns `False` before any line is processed.  A fully readable
source runs the line loop and returns `len(self.movies) > 0`.  A source
failing mid-read first has its decoded lines processed — the records
collected from them are appended to `self.movies` and are NOT removed —
and then the exception caught around the loop forces a `False` return;
unless the record cap stopped the loop before the failure point was
reached, in which case the failure is never encountered and the load ends
normally.  The access-failure kind is reported in the third component,
distinct from the per-line warnings inside the state. -/
def loadMovies : Source → LoadState × Bool × Option AccessFailure
  | Source.inaccessible e => (initState, false, some e)
  | Source.readable lines =>
      let s := loadAux lines 1 initState
      (s, decide (0 < s.movies.length), none)
  | Source.truncated lines e =>
      let s := loadAux lines 1 initState
      if s.capWarning then (s, decide (0 < s.movies.length), none)
      else (s, false, some e)

/-- The sort key order of `analyze_movies`: Python sorts ascending by the
key `(-rating, year)`, i.e. rating descending with ties broken by year
ascending. -/
def movieLe (a b : Movie) : Prop :=
  b.rating < a.rating ∨ (a.rating = b.rating ∧ a.year ≤ b.year)

instance : DecidableRel movieLe := fun a b => by
  unfold movieLe; infer_instance

instance : IsTotal Movie movieLe where
  total a b := by
    unfold movieLe
    rcases lt_trichotomy a.rating b.rating with h | h | h
    · exact Or.inr (Or.inl h)
    · rcases le_total a.year b.year with hy | hy
      · exact Or.inl (Or.inr ⟨h, hy⟩)
      · exact Or.inr (Or.inr ⟨h.symm, hy⟩)
    · exact Or.inl (Or.inl h)

instance : IsTrans Movie movieLe where
  trans a b c hab hbc := by
    unfold movieLe at *
    rcases hab with h1 | ⟨he1, hy1⟩
    · rcases hbc with h2 | ⟨he2, _⟩
      · exact Or.inl (h2.trans h1)
      · exact Or.inl (he2 ▸ h1)
    · rcases hbc with h2 | ⟨he2, hy2⟩
      · exact Or.inl (by rw [he1]; exact h2)
      · exact Or.inr ⟨he1.trans he2, hy1.trans hy2⟩

/-- `sorted(self.movies, key=lambda m: (-m.rating, m.year))`: the Python
sort is stable, embedded as a stable insertion sort under `movieLe`. -/
def sortMovies (l : List Movie) : List Movie :=
  List.insertionSort movieLe l

/-- `_display_top_movies`: the displayed record list is the first
`min(count, len(sorted_movies))` records of the ranked order. -/
def topMovies (l : List Movie) (count : Nat) : List Movie :=
  (sortMovies l).take (min count (sortMovies l).length)

/-- Per-director accumulator of `_display_director_analysis`
(`count`, `total_rating`, `movies`). -/
structure DirStats where
  count : Nat
  totalRating : ℚ
  titles : List String
deriving DecidableEq, Repr

/-- One step of the director grouping loop: update the (insertion-ordered)
association list at the exact director string of the record. -/
def updateDir : List (String × DirStats) → Movie → List (String × DirStats)
  | [], m => [(m.director, ⟨1, m.rating, [m.title]⟩)]
  | (d, s) :: rest, m =>
      if d = m.director then
        (d, ⟨s.count + 1, s.totalRating + m.rating, s.titles ++ [m.title]⟩) :: rest
      else
        (d, s) :: updateDir rest m

/-- The `director_stats` dictionary of `_display_director_analysis`, with
Python dict insertion order. -/
def directorStats (l : List Movie) : List (String × DirStats) :=
  l.foldl updateDir []

/-- The `qualified_directors` filter: only groups with at least 2 records. -/
def qualifiedDirectors (l : List Movie) : List (String × DirStats) :=
  (directorStats l).filter (fun e => decide (2 ≤ e.2.count))

/-- A director group's mean rating, `total_rating / count`. -/
def dirMean (e : String × DirStats) : ℚ :=
  e.2.totalRating / (e.2.count : ℚ)

/-- The descending-mean order used by
`sorted(..., key=mean, reverse=True)`. -/
def dirGe (a b : String × DirStats) : Prop :=
  dirMean b ≤ dirMean a

instance : DecidableRel dirGe := fun a b => by
  unfold dirGe; infer_instance

instance : IsTotal (String × DirStats) dirGe where
  total a b := le_total (dirMean b) (dirMean a)

instance : IsTrans (String × DirStats) dirGe where
  trans _ _ _ hab hbc := le_trans hbc hab

/-- The surfaced director entries: qualifying groups sorted by mean rating
descending (stably), truncated to the top 5. -/
def topDirectors (l : List Movie) : List (String × DirStats) :=
  (List.insertionSort dirGe (qualifiedDirectors l)).take 5

/-- Per-decade accumulator of `_display_decade_analysis`
(`count`, `total_rating`). -/
structure DecadeStats where
  count : Nat
  totalRating : ℚ
deriving DecidableEq, Repr

/-- One step of the decade grouping loop: update the (insertion-ordered)
association list at the decade label of the record. -/
def updateDecade : List (String × DecadeStats) → Movie → List (String × DecadeStats)
  | [], m => [(getDecade m, ⟨1, m.rating⟩)]
  | (d, s) :: rest, m =>
      if d = getDecade m then
        (d, ⟨s.count + 1, s.totalRating + m.rating⟩) :: rest
      else
        (d, s) :: updateDecade rest m

/-- The `decade_stats` dictionary of `_display_decade_analysis`, with Python
dict insertion order. -/
def decadeStats (l : List Movie) : List (String × DecadeStats) :=
  l.foldl updateDecade []

/-- Lexicographic code-point comparison of character lists: the order Python
uses to compare the decade label strings in `sorted(decade_stats.items())`. -/
def charsLe : List Char → List Char → Bool
  | [], _ => true
  | _ :: _, [] => false
  | a :: as, b :: bs => if a < b then true else if a = b then charsLe as bs else false

/-- The ascending label order of `sorted(decade_stats.items())`. -/
def decadeLe (a b : String × DecadeStats) : Prop :=
  charsLe a.1.data b.1.data = true

instance : DecidableRel decadeLe := fun a b => by
  unfold decadeLe; infer_instance

/-- The `sorted_decades` list: decade groups sorted ascending by label. -/
def sortedDecades (l : List Movie) : List (String × DecadeStats) :=
  List.insertionSort decadeLe (decadeStats l)

instance : IsTotal (String × DecadeStats) decadeLe where
  total a b := by
    unfold decadeLe
    have key : ∀ x y : List Char, charsLe x y = true ∨ charsLe y x = true := by
      intro x
      induction x with
      | nil => intro y; exact Or.inl rfl
      | cons a as ih =>
          intro y
          cases y with
          | nil => exact Or.inr rfl
          | cons b bs =>
              rcases lt_trichotomy a b with h | h | h
              · left; simp [charsLe, h]
              · subst h
                rcases ih bs with h2 | h2
                · left; simp [charsLe, lt_irrefl, h2]
                · right; simp [charsLe, lt_irrefl, h2]
              · right; simp [charsLe, h]
    exact key a.1.data b.1.data

instance : IsTrans (String × DecadeStats) decadeLe where
  trans a b c hab hbc := by
    unfold decadeLe at hab hbc ⊢
    have key : ∀ x y z : List Char,
        charsLe x y = true → charsLe y z = true → charsLe x z = true := by
      intro x
      induction x with
      | nil => intro y z _ _; rfl
      | cons a as ih =>
          intro y z hxy hyz
          cases y with
          | nil => simp [charsLe] at hxy
          | cons b bs =>
              cases z with
              | nil => simp [charsLe] at hyz
              | cons c cs =>
                  rcases lt_trichotomy a b with h1 | h1 | h1
                  · rcases lt_trichotomy b c with h2 | h2 | h2
                    · simp [charsLe, lt_trans h1 h2]
                    · subst h2; simp [charsLe, h1]
                    · simp [charsLe, asymm h2, ne_of_gt h2] at hyz
                  · subst h1
                    simp only [charsLe, lt_irrefl, if_false, if_pos rfl] at hxy
                    rcases lt_trichotomy a c with h2 | h2 | h2
                    · simp [charsLe, h2]
                    · subst h2
                      simp only [charsLe, lt_irrefl, if_false, if_pos rfl] at hyz ⊢
                      exact ih bs cs hxy hyz
                    · simp [charsLe, asymm h2, ne_of_gt h2] at hyz
                  · simp [charsLe, asymm h1, ne_of_gt h1] at hxy
    exact key a.1.data b.1.data c.1.data hab hbc

/-- First entry stored under a decade label in the association list
(Python dict lookup). -/
def entryForDecade : List (String × DecadeStats) → String → Option DecadeStats
  | [], _ => none
  | (d, s) :: rest, d2 => if d = d2 then some s else entryForDecade rest d2

/-- The per-record update `_display_decade_analysis` applies to the
(possibly absent) accumulated entry of a decade. -/
def decadeBump (m : Movie) : Option DecadeStats → DecadeStats
  | none => ⟨1, m.rating⟩
  | some s => ⟨s.count + 1, s.totalRating + m.rating⟩

/-- Count of an optional decade entry (absent counts as zero). -/
def decadeCount : Option DecadeStats → Nat
  | none => 0
  | some s => s.count

/-- The decade starts reachable from a valid year (1800–2030). -/
def decadeVals : List Nat :=
  [1800, 1810, 1820, 1830, 1840, 1850, 1860, 1870, 1880, 1890,
   1900, 1910, 1920, 1930, 1940, 1950, 1960, 1970, 1980, 1990,
   2000, 2010, 2020, 2030]

/-- Python `"=" * n`. -/
def eqBar (n : Nat) : String :=
  (List.replicate n '=').asString

/-- Python format `{i:2}`: right-align in a minimum width of 2. -/
def padWidth2 (n : Nat) : String :=
  if n < 10 then " " ++ toString n else toString n

/-- `Movie.__str__`.  `fmtR` renders a rating as Python `repr(float)`
would. -/
def movieStr (fmtR : ℚ → String) (m : Movie) : String :=
  m.title ++ " (" ++ toString m.year ++ ") - Directed by " ++ m.director ++
    ", Rating: " ++ fmtR m.rating ++ "/10"

/-- `_display_top_movies`: one string per `print` call. -/
def displayTopMovies (fmtR : ℚ → String) (sortedMovies : List Movie)
    (count : Nat) : List String :=
  let actual := min count sortedMovies.length
  ("\n🏆 Top " ++ toString actual ++ " Rated Movies:") :: eqBar 50 ::
    ((sortedMovies.take actual).enumFrom 1).map
      (fun p => padWidth2 p.1 ++ ". " ++ movieStr fmtR p.2)

/-- Python `min` over a non-empty list (the default is never reached by the
program, which only calls this on non-empty data). -/
def foldMin {α : Type} [Min α] (dflt : α) : List α → α
  | [] => dflt
  | x :: xs => xs.foldl min x

/-- Python `max` over a non-empty list. -/
def foldMax {α : Type} [Max α] (dflt : α) : List α → α
  | [] => dflt
  | x :: xs => xs.foldl max x

/-- `_display_statistics`.  `fmt2` renders a rational as Python `{:.2f}`
would; `fmtR` as `repr(float)`. -/
def displayStatistics (fmtR fmt2 : ℚ → String) (movies : List Movie) :
    List String :=
  let ratings := movies.map Movie.rating
  let years := movies.map Movie.year
  let avg := ratings.sum / (ratings.length : ℚ)
  ["\n📊 Statistics:", eqBar 30,
   "Total Movies: " ++ toString movies.length,
   "Average Rating: " ++ fmt2 avg ++ "/10",
   "Rating Range: " ++ fmtR (foldMin 0 ratings) ++ " - " ++ fmtR (foldMax 0 ratings),
   "Year Range: " ++ toString (foldMin 0 years) ++ " - " ++ toString (foldMax 0 years)]

/-- `_display_director_analysis`: header plus one line per surfaced
director; nothing at all when no director qualifies. -/
def displayDirectorAnalysis (fmt2 : ℚ → String) (movies : List Movie) :
    List String :=
  if qualifiedDirectors movies = [] then []
  else
    ("\n🎬 Top Directors (2+ movies):") :: eqBar 40 ::
      (topDirectors movies).map
        (fun e => e.1 ++ ": " ++ fmt2 (dirMean e) ++ " avg (" ++
          toString e.2.count ++ " movies)")

/-- `_display_decade_analysis`: header plus one line per decade bucket in
ascending label order. -/
def displayDecadeAnalysis (fmt2 : ℚ → String) (movies : List Movie) :
    List String :=
  ("\n📅 Movies by Decade:") :: eqBar 25 ::
    (sortedDecades movies).map
      (fun e => e.1 ++ ": " ++ toString e.2.count ++ " movies, " ++
        fmt2 (e.2.totalRating / (e.2.count : ℚ)) ++ " avg rating")

/-- `analyze_movies`: the console-equivalent report, one string per `print`
call. -/
def analyzeLines (fmtR fmt2 : ℚ → String) (movies : List Movie)
    (topCount : Nat) : List String :=
  if movies = [] then ["❌ No movies to analyze."]
  else
    displayTopMovies fmtR (sortMovies movies) topCount ++
    displayStatistics fmtR fmt2 movies ++
    displayDirectorAnalysis fmt2 movies ++
    displayDecadeAnalysis fmt2 movies

/-- `export_analysis` body: the report header naming the working directory,
then the captured output of the same `analyze_movies` routine at its default
`top_count = 10`. -/
def exportLines (fmtR fmt2 : ℚ → String) (cwd : String)
    (movies : List Movie) : List String :=
  ("Movie Analysis Report - Generated on " ++ cwd) :: eqBar 60 ::
    analyzeLines fmtR fmt2 movies 10

/-- `export_analysis` as a state transformer: the session state is read but
never written; an unwritable destination yields `False` and nothing is
written, a writable one receives `exportLines` and yields `True`. -/
def exportAnalysis (s : LoadState) (writable : Bool) (cwd : String)
    (fmtR fmt2 : ℚ → String) : LoadState × Bool × Option (List String) :=
  if writable then (s, true, some (exportLines fmtR fmt2 cwd s.movies))
  else (s, false, none)

/-- First entry stored under a director key in the association list
(Python dict lookup). -/
def entryFor : List (String × DirStats) → String → Option DirStats
  | [], _ => none
  | (d, s) :: rest, d' => if d = d' then some s else entryFor rest d'

/-- The per-record update `_display_director_analysis` applies to a
(possibly absent) accumulated entry of a director. -/
def dirBump (m : Movie) : Option DirStats → DirStats
  | none => ⟨1, m.rating, [m.title]⟩
  | some s => ⟨s.count + 1, s.totalRating + m.rating, s.titles ++ [m.title]⟩

/-- Count of an optional director entry (absent counts as zero). -/
def optCount : Option DirStats → Nat
  | none => 0
  | some s => s.count

/-- Accumulated rating total of an optional director entry. -/
def optTotal : Option DirStats → ℚ
  | none => 0
  | some s => s.totalRating

/-- Inserting an element that the predicate selects, when the order relation
puts it no later than every selected element, prepends it to the filtered
list: the heart of stability. -/
theorem filter_orderedInsert {α : Type} (r : α → α → Prop) [DecidableRel r]
    (p : α → Bool) (a : α) (l : List α) (hpa : p a = true)
    (h : ∀ b, p b = true → r a b) :
    (List.orderedInsert r a l).filter p = a :: l.filter p := by
  induction l with
  | nil => simp [List.orderedInsert, hpa]
  | cons b t ih =>
      by_cases hr : r a b
      · simp [List.orderedInsert, hr, List.filter_cons, hpa]
      · have hpb : p b = false := by
          cases hb : p b
          · rfl
          · exact absurd (h b hb) hr
        simp [List.orderedInsert, hr, List.filter_cons, hpb, ih]

/-- Inserting an element the predicate rejects leaves the filtered list
unchanged. -/
theorem filter_orderedInsert_neg {α : Type} (r : α → α → Prop) [DecidableRel r]
    (p : α → Bool) (a : α) (l : List α) (hpa : p a = false) :
    (List.orderedInsert r a l).filter p = l.filter p := by
  induction l with
  | nil => simp [List.orderedInsert, hpa]
  | cons b t ih =>
      by_cases hr : r a b
      · simp [List.orderedInsert, hr, List.filter_cons, hpa]
      · simp [List.orderedInsert, hr, List.filter_cons, ih]

/-- Stability of insertion sort: on any class of elements that the relation
cannot tell apart (the predicate-selected class), sorting preserves the
original order. -/
theorem filter_insertionSort {α : Type} (r : α → α → Prop) [DecidableRel r]
    (p : α → Bool) (l : List α)
    (h : ∀ a b, p a = true → p b = true → r a b) :
    (List.insertionSort r l).filter p = l.filter p := by
  induction l with
  | nil => rfl
  | cons x t ih =>
      cases hx : p x
      · rw [List.insertionSort, filter_orderedInsert_neg r p x _ hx, ih,
          List.filter_cons_of_neg]
        simp [hx]
      · rw [List.insertionSort, filter_orderedInsert r p x _ hx (fun b hb => h x b hx hb),
          ih, List.filter_cons_of_pos]
        simp [hx]

/-- C1.  The ranking operation returns a permutation of the records, sorted
by rating descending with ties broken by year ascending; it is stable
(records equal in both rating and year keep their input order); and top `n`
is the first `min n (record count)` entries of that order, for every `n`,
with no error when `n` exceeds the record count. -/
theorem ranking_sorted_stable_top (l : List Movie) (n : Nat) :
    (sortMovies l).Perm l
  ∧ List.Sorted movieLe (sortMovies l)
  ∧ (∀ (ρ : ℚ) (y : ℤ),
      (sortMovies l).filter (fun m => decide (m.rating = ρ ∧ m.year = y)) =
        l.filter (fun m => decide (m.rating = ρ ∧ m.year = y)))
  ∧ topMovies l n = (sortMovies l).take n
  ∧ (topMovies l n).length = min n l.length := by
  refine ⟨List.perm_insertionSort movieLe l, List.sorted_insertionSort movieLe l, ?_, ?_, ?_⟩
  · intro ρ y
    apply filter_insertionSort
    intro a b ha hb
    simp only [decide_eq_true_eq] at ha hb
    exact Or.inr ⟨ha.1.trans hb.1.symm, le_of_eq (ha.2.trans hb.2.symm)⟩
  · unfold topMovies
    rcases le_total n (sortMovies l).length with h | h
    · rw [min_eq_left h]
    · rw [min_eq_right h, List.take_length, List.take_of_length_le h]
  · unfold topMovies
    simp only [List.length_take, sortMovies, List.length_insertionSort]
    omega


theorem entryFor_updateDir (acc : List (String × DirStats)) (m : Movie) (d : String) :
    entryFor (updateDir acc m) d =
      if m.director = d then some (dirBump m (entryFor acc d)) else entryFor acc d := by
  induction acc with
  | nil =>
      by_cases h : m.director = d <;> simp [updateDir, entryFor, dirBump, h]
  | cons e rest ih =>
      obtain ⟨d0, s0⟩ := e
      by_cases h0 : d0 = m.director
      · by_cases h : d0 = d
        · have hmd : m.director = d := h0 ▸ h
          simp [updateDir, entryFor, h0, h, hmd, dirBump]
        · have hmd : ¬ m.director = d := fun hx => h (h0.trans hx)
          simp [updateDir, entryFor, h0, h, hmd]
      · by_cases h : d0 = d
        · have hmd : ¬ m.director = d := fun hx => h0 (h.trans hx.symm)
          have hdm : ¬ d = m.director := fun hx => hmd hx.symm
          simp [updateDir, entryFor, h0, h, hmd, hdm]
        · simp [updateDir, entryFor, h0, h, ih]


/-- Running the director-grouping loop adds, at every key, exactly the
count and rating mass of the records carrying that key. -/
theorem directorStats_entry (l : List Movie) :
    ∀ (acc : List (String × DirStats)) (d : String),
      optCount (entryFor (l.foldl updateDir acc) d)
        = optCount (entryFor acc d) +
            (l.filter (fun m => decide (m.director = d))).length
    ∧ optTotal (entryFor (l.foldl updateDir acc) d)
        = optTotal (entryFor acc d) +
            ((l.filter (fun m => decide (m.director = d))).map Movie.rating).sum := by
  induction l with
  | nil => intro acc d; simp
  | cons m t ih =>
      intro acc d
      have hfold : (m :: t).foldl updateDir acc = t.foldl updateDir (updateDir acc m) := rfl
      obtain ⟨ihc, iht⟩ := ih (updateDir acc m) d
      rw [hfold]
      by_cases h : m.director = d
      · constructor
        · rw [ihc, entryFor_updateDir, if_pos h]
          cases ho : entryFor acc d <;>
            simp [optCount, dirBump, List.filter_cons, h, ho] <;> omega
        · rw [iht, entryFor_updateDir, if_pos h]
          cases ho : entryFor acc d <;>
            simp [optTotal, dirBump, List.filter_cons, h, ho] <;> ring
      · constructor
        · rw [ihc, entryFor_updateDir, if_neg h]
          simp [List.filter_cons, h]
        · rw [iht, entryFor_updateDir, if_neg h]
          simp [List.filter_cons, h]

theorem keys_updateDir (acc : List (String × DirStats)) (m : Movie) :
    (updateDir acc m).map Prod.fst =
      if m.director ∈ acc.map Prod.fst then acc.map Prod.fst
      else acc.map Prod.fst ++ [m.director] := by
  induction acc with
  | nil => simp [updateDir]
  | cons e rest ih =>
      obtain ⟨d0, s0⟩ := e
      by_cases h0 : d0 = m.director
      · subst h0; simp [updateDir]
      · have hne : ¬ m.director = d0 := fun hx => h0 hx.symm
        by_cases hmem : m.director ∈ rest.map Prod.fst
        · simp [updateDir, h0, ih, hmem, hne]
        · simp [updateDir, h0, ih, hmem, hne]

theorem nodup_keys_foldl_updateDir (l : List Movie) :
    ∀ acc : List (String × DirStats), (acc.map Prod.fst).Nodup →
      ((l.foldl updateDir acc).map Prod.fst).Nodup := by
  induction l with
  | nil => intro acc h; exact h
  | cons m t ih =>
      intro acc h
      apply ih
      rw [keys_updateDir]
      by_cases hmem : m.director ∈ acc.map Prod.fst
      · rw [if_pos hmem]; exact h
      · rw [if_neg hmem]
        refine List.Nodup.append h (List.nodup_singleton _) ?_
        intro a ha hb
        rw [List.mem_singleton] at hb
        exact hmem (hb ▸ ha)

theorem entryFor_of_mem :
    ∀ (acc : List (String × DirStats)) (d : String) (s : DirStats),
      (acc.map Prod.fst).Nodup → (d, s) ∈ acc → entryFor acc d = some s := by
  intro acc
  induction acc with
  | nil => intro d s _ h; simp at h
  | cons e rest ih =>
      intro d s hnd hmem
      obtain ⟨d0, s0⟩ := e
      rcases List.mem_cons.mp hmem with heq | hrest
      · injection heq with h1 h2
        simp only [entryFor]
        rw [if_pos h1.symm, h2]
      · simp only [List.map_cons, List.nodup_cons] at hnd
        by_cases h : d0 = d
        · exfalso
          apply hnd.1
          rw [h]
          exact List.mem_map_of_mem Prod.fst hrest
        · simp only [entryFor, if_neg h]
          exact ih d s hnd.2 hrest

/-- C2.  The director aggregation groups records by the exact director
string (count and rating total of each surfaced entry are exactly those of
the records with that director); no surfaced director has fewer than 2
records; at most 5 entries are surfaced; entries are ordered by descending
mean rating; and any director with fewer than 2 records is (silently)
absent. -/
theorem directors_grouped_top5 (l : List Movie) :
    (topDirectors l).length ≤ 5
  ∧ List.Pairwise dirGe (topDirectors l)
  ∧ (∀ e ∈ topDirectors l,
        2 ≤ e.2.count
      ∧ e.2.count = (l.filter (fun m => decide (m.director = e.1))).length
      ∧ e.2.totalRating =
          ((l.filter (fun m => decide (m.director = e.1))).map Movie.rating).sum)
  ∧ (∀ d : String,
        (l.filter (fun m => decide (m.director = d))).length < 2 →
        ∀ s : DirStats, (d, s) ∉ topDirectors l) := by
  have hmem : ∀ e ∈ topDirectors l,
      2 ≤ e.2.count
    ∧ e.2.count = (l.filter (fun m => decide (m.director = e.1))).length
    ∧ e.2.totalRating =
        ((l.filter (fun m => decide (m.director = e.1))).map Movie.rating).sum := by
    intro e he
    have h1 : e ∈ List.insertionSort dirGe (qualifiedDirectors l) :=
      List.mem_of_mem_take he
    have h2 : e ∈ qualifiedDirectors l := (List.mem_insertionSort dirGe).mp h1
    rw [qualifiedDirectors, List.mem_filter] at h2
    obtain ⟨hds, hq⟩ := h2
    have hcount : 2 ≤ e.2.count := by simpa using hq
    have hnd : ((directorStats l).map Prod.fst).Nodup :=
      nodup_keys_foldl_updateDir l [] (by simp)
    have hentry : entryFor (directorStats l) e.1 = some e.2 := by
      apply entryFor_of_mem _ _ _ hnd
      simpa using hds
    obtain ⟨hc, ht⟩ := directorStats_entry l [] e.1
    rw [directorStats] at hentry
    rw [hentry] at hc ht
    simp only [entryFor, optCount, optTotal] at hc ht
    exact ⟨hcount, by simpa using hc, by simpa using ht⟩
  refine ⟨List.length_take_le 5 _, ?_, hmem, ?_⟩
  · exact (List.sorted_insertionSort dirGe (qualifiedDirectors l)).sublist
      (List.take_sublist 5 _)
  · intro d hlt s hin
    obtain ⟨hcount, hc, _⟩ := hmem (d, s) hin
    have hd : (d, s).1 = d := rfl
    rw [hd] at hc
    rw [hc] at hcount
    omega

/-- Concrete evaluation of the director aggregation: D1 has two records
(ratings 6 and 8), D2 only one, so only D1 is surfaced. -/
theorem topDirectors_example :
    topDirectors [⟨"A", "D1", 2000, 6⟩, ⟨"B", "D1", 2001, 8⟩, ⟨"C", "D2", 2002, 9⟩] =
      [("D1", ⟨2, 14, ["A", "B"]⟩)] := by
  norm_num [topDirectors, qualifiedDirectors, directorStats, updateDir,
    List.insertionSort, List.orderedInsert, List.foldl, List.filter]

/-- Witness for `directors_grouped_top5` at a concrete input. -/
theorem directors_grouped_top5_witness :
    2 ≤ (("D1", (⟨2, 14, ["A", "B"]⟩ : DirStats)) : String × DirStats).2.count
  ∧ (("D1", (⟨2, 14, ["A", "B"]⟩ : DirStats)) : String × DirStats).2.count =
      (([⟨"A", "D1", 2000, 6⟩, ⟨"B", "D1", 2001, 8⟩, ⟨"C", "D2", 2002, 9⟩] : List Movie).filter
        (fun m => decide (m.director = (("D1", (⟨2, 14, ["A", "B"]⟩ : DirStats)) : String × DirStats).1))).length
  ∧ (("D1", (⟨2, 14, ["A", "B"]⟩ : DirStats)) : String × DirStats).2.totalRating =
      ((([⟨"A", "D1", 2000, 6⟩, ⟨"B", "D1", 2001, 8⟩, ⟨"C", "D2", 2002, 9⟩] : List Movie).filter
        (fun m => decide (m.director = (("D1", (⟨2, 14, ["A", "B"]⟩ : DirStats)) : String × DirStats).1))).map
          Movie.rating).sum :=
  (directors_grouped_top5
      [⟨"A", "D1", 2000, 6⟩, ⟨"B", "D1", 2001, 8⟩, ⟨"C", "D2", 2002, 9⟩]).2.2.1
    ("D1", ⟨2, 14, ["A", "B"]⟩)
    (by rw [topDirectors_example]; exact List.mem_singleton.mpr rfl)

/-- C3.  Construction succeeds exactly when the year is in 1800–2030, the
rating in 0.0–10.0, and the stripped title and director are non-empty; a
successful construction returns precisely the given fields and the record
satisfies the validity invariant (no invalid record is observable); any
violation yields a `ValidationError`-style error message instead. -/
theorem record_construction_valid_iff (t d : String) (y : ℤ) (r : ℚ) :
    ((∃ m, mkMovie t d y r = Except.ok m) ↔
      (1800 ≤ y ∧ y ≤ 2030 ∧ MIN_RATING ≤ r ∧ r ≤ MAX_RATING ∧
       strTrim t ≠ "" ∧ strTrim d ≠ ""))
  ∧ (∀ m, mkMovie t d y r = Except.ok m →
        m.title = t ∧ m.director = d ∧ m.year = y ∧ m.rating = r ∧ validMovie m)
  ∧ (¬ (1800 ≤ y ∧ y ≤ 2030 ∧ MIN_RATING ≤ r ∧ r ≤ MAX_RATING ∧
        strTrim t ≠ "" ∧ strTrim d ≠ "") →
      ∃ e, mkMovie t d y r = Except.error e) := by
  unfold mkMovie
  split_ifs with h1 h2 h3 h4
  · exact ⟨⟨fun ⟨_, hm⟩ => hm.elim, fun hc => absurd h1 (by omega)⟩,
      fun m hm => hm.elim, fun _ => ⟨_, rfl⟩⟩
  · exact ⟨⟨fun ⟨_, hm⟩ => hm.elim, fun hc => absurd h3 hc.2.2.2.2.1⟩,
      fun m hm => hm.elim, fun _ => ⟨_, rfl⟩⟩
  · exact ⟨⟨fun ⟨_, hm⟩ => hm.elim, fun hc => absurd h4 hc.2.2.2.2.2⟩,
      fun m hm => hm.elim, fun _ => ⟨_, rfl⟩⟩
  · have hcond : 1800 ≤ y ∧ y ≤ 2030 ∧ MIN_RATING ≤ r ∧ r ≤ MAX_RATING ∧
        strTrim t ≠ "" ∧ strTrim d ≠ "" :=
      ⟨by omega, by omega, h2.1, h2.2, h3, h4⟩
    refine ⟨⟨fun _ => hcond, fun _ => ⟨_, rfl⟩⟩, ?_, fun hc => absurd hcond hc⟩
    intro m hm
    injection hm with hm
    subst hm
    exact ⟨rfl, rfl, rfl, rfl, hcond⟩
  · exact ⟨⟨fun ⟨_, hm⟩ => hm.elim, fun hc => absurd ⟨hc.2.2.1, hc.2.2.2.1⟩ h2⟩,
      fun m hm => hm.elim, fun _ => ⟨_, rfl⟩⟩

/-- Witness for `record_construction_valid_iff` at a concrete input. -/
theorem record_construction_valid_iff_witness :
    ∃ m, mkMovie "A" "B" 2000 5 = Except.ok m :=
  (record_construction_valid_iff "A" "B" 2000 5).1.mpr
    ⟨by decide, by decide, by decide, by decide, by decide, by decide⟩

/-- Unfolding equation for one loader step. -/
theorem loadAux_cons (line : String) (rest : List String) (n : Nat) (s : LoadState) :
    loadAux (line :: rest) n s =
      if skippable line then loadAux rest (n + 1) s
      else
        match parseLine (strTrim line) with
        | Except.error msg =>
            loadAux rest (n + 1)
              ⟨s.movies, s.totalProcessed + 1, s.invalid + 1,
               s.warnings ++ [(n, msg)], s.capWarning⟩
        | Except.ok m =>
            if MAX_MOVIES ≤ (s.movies ++ [m]).length then
              ⟨s.movies ++ [m], s.totalProcessed + 1, s.invalid, s.warnings, true⟩
            else
              loadAux rest (n + 1)
                ⟨s.movies ++ [m], s.totalProcessed + 1, s.invalid, s.warnings,
                 s.capWarning⟩ := by
  cases s
  rfl

/-- The collected records, control flow and capacity flag of the loader do not
depend on the two counters or on previously emitted warnings; those are
carried along additively. -/
theorem loadAux_shift (lines : List String) :
    ∀ (n : Nat) (M : List Movie) (c : Bool) (p i : Nat) (w : List (Nat × String)),
    loadAux lines n ⟨M, p, i, w, c⟩ =
      ⟨(loadAux lines n ⟨M, 0, 0, [], c⟩).movies,
       p + (loadAux lines n ⟨M, 0, 0, [], c⟩).totalProcessed,
       i + (loadAux lines n ⟨M, 0, 0, [], c⟩).invalid,
       w ++ (loadAux lines n ⟨M, 0, 0, [], c⟩).warnings,
       (loadAux lines n ⟨M, 0, 0, [], c⟩).capWarning⟩ := by
  induction lines with
  | nil => intro n M c p i w; simp [loadAux]
  | cons line rest ih =>
      intro n M c p i w
      by_cases hs : skippable line
      · rw [loadAux_cons, if_pos hs, loadAux_cons, if_pos hs]
        exact ih (n + 1) M c p i w
      · rw [loadAux_cons, if_neg hs, loadAux_cons, if_neg hs]
        cases hp : parseLine (strTrim line) with
        | error msg =>
            simp only
            rw [ih (n + 1) M c (p + 1) (i + 1) (w ++ [(n, msg)]),
              ih (n + 1) M c (0 + 1) (0 + 1) ([] ++ [(n, msg)])]
            simp only [LoadState.mk.injEq, List.append_assoc, List.nil_append,
              true_and, and_true]
            omega
        | ok m =>
            simp only
            by_cases hcap : MAX_MOVIES ≤ (M ++ [m]).length
            · rw [if_pos hcap, if_pos hcap]
              simp
            · rw [if_neg hcap, if_neg hcap]
              rw [ih (n + 1) (M ++ [m]) c (p + 1) i w,
                ih (n + 1) (M ++ [m]) c (0 + 1) 0 []]
              simp only [LoadState.mk.injEq, List.append_assoc, List.nil_append,
                List.append_nil, true_and, and_true]
              omega

/-- Everything but the warning line numbers is independent of the starting
line number. -/
theorem loadAux_lineNum (lines : List String) :
    ∀ (n nn : Nat) (s : LoadState),
      (loadAux lines n s).movies = (loadAux lines nn s).movies
    ∧ (loadAux lines n s).totalProcessed = (loadAux lines nn s).totalProcessed
    ∧ (loadAux lines n s).invalid = (loadAux lines nn s).invalid
    ∧ (loadAux lines n s).capWarning = (loadAux lines nn s).capWarning := by
  induction lines with
  | nil => intro n nn s; exact ⟨rfl, rfl, rfl, rfl⟩
  | cons line rest ih =>
      intro n nn s
      obtain ⟨M, p, i, w, c⟩ := s
      by_cases hs : skippable line
      · rw [loadAux_cons, if_pos hs, loadAux_cons, if_pos hs]
        exact ih (n + 1) (nn + 1) _
      · rw [loadAux_cons, if_neg hs, loadAux_cons, if_neg hs]
        cases hp : parseLine (strTrim line) with
        | error msg =>
            simp only
            rw [loadAux_shift rest (n + 1) M c (p + 1) (i + 1) (w ++ [(n, msg)]),
              loadAux_shift rest (nn + 1) M c (p + 1) (i + 1) (w ++ [(nn, msg)])]
            obtain ⟨e1, e2, e3, e4⟩ := ih (n + 1) (nn + 1) ⟨M, 0, 0, [], c⟩
            exact ⟨e1, by simp [e2], by simp [e3], e4⟩
        | ok m =>
            simp only
            by_cases hcap : MAX_MOVIES ≤ (M ++ [m]).length
            · rw [if_pos hcap, if_pos hcap]
              exact ⟨rfl, rfl, rfl, rfl⟩
            · rw [if_neg hcap, if_neg hcap]
              exact ih (n + 1) (nn + 1) _

/-- Splitting a load at a prefix: if the capacity stop fired inside the
prefix, the remaining lines are never looked at; otherwise loading resumes
on the suffix from the final state and line number of the prefix. -/
theorem loadAux_append (l1 l2 : List String) :
    ∀ (n : Nat) (s : LoadState), s.capWarning = false →
    loadAux (l1 ++ l2) n s =
      if (loadAux l1 n s).capWarning then loadAux l1 n s
      else loadAux l2 (n + l1.length) (loadAux l1 n s) := by
  induction l1 with
  | nil =>
      intro n s hc
      simp [loadAux, hc]
  | cons line rest ih =>
      intro n s hc
      obtain ⟨M, p, i, w, c⟩ := s
      simp only at hc
      subst hc
      rw [List.cons_append, loadAux_cons, loadAux_cons]
      by_cases hs : skippable line
      · rw [if_pos hs, if_pos hs, ih (n + 1) _ rfl]
        have : n + 1 + rest.length = n + (line :: rest).length := by
          simp [List.length_cons]; omega
        rw [this]
      · rw [if_neg hs, if_neg hs]
        cases hp : parseLine (strTrim line) with
        | error msg =>
            simp only
            rw [ih (n + 1) _ rfl]
            have : n + 1 + rest.length = n + (line :: rest).length := by
              simp [List.length_cons]; omega
            rw [this]
        | ok m =>
            simp only
            by_cases hcap : MAX_MOVIES ≤ (M ++ [m]).length
            · rw [if_pos hcap, if_pos hcap]
              simp
            · rw [if_neg hcap, if_neg hcap, ih (n + 1) _ rfl]
              have : n + 1 + rest.length = n + (line :: rest).length := by
                simp [List.length_cons]; omega
              rw [this]

/-- Capacity invariant: starting below the cap with the warning unset, the
collection never exceeds `MAX_MOVIES`, and the capacity warning is emitted
exactly when the collection reaches `MAX_MOVIES`. -/
theorem loadAux_cap (lines : List String) :
    ∀ (n : Nat) (s : LoadState), s.capWarning = false →
      s.movies.length < MAX_MOVIES →
      (loadAux lines n s).movies.length ≤ MAX_MOVIES
    ∧ ((loadAux lines n s).capWarning = true ↔
        (loadAux lines n s).movies.length = MAX_MOVIES) := by
  induction lines with
  | nil =>
      intro n s hc hm
      constructor
      · exact le_of_lt hm
      · rw [loadAux, hc]
        constructor
        · intro h; exact absurd h (by simp)
        · intro h; omega
  | cons line rest ih =>
      intro n s hc hm
      obtain ⟨M, p, i, w, c⟩ := s
      simp only at hc hm
      subst hc
      rw [loadAux_cons]
      by_cases hs : skippable line
      · rw [if_pos hs]
        exact ih (n + 1) _ rfl hm
      · rw [if_neg hs]
        cases hp : parseLine (strTrim line) with
        | error msg =>
            simp only
            exact ih (n + 1) _ rfl hm
        | ok m =>
            simp only
            by_cases hcap : MAX_MOVIES ≤ (M ++ [m]).length
            · rw [if_pos hcap]
              have hlen : (M ++ [m]).length = MAX_MOVIES := by
                simp only [List.length_append, List.length_singleton] at hcap ⊢
                omega
              exact ⟨le_of_eq hlen, by simp [hlen]⟩
            · rw [if_neg hcap]
              refine ih (n + 1) _ rfl ?_
              simp only [List.length_append, List.length_singleton] at hcap ⊢
              omega

/-- Counter invariant: every non-skippable line accounts for exactly one
collected record or one rejected entry. -/
theorem loadAux_counter (lines : List String) :
    ∀ (n : Nat) (s : LoadState),
      (loadAux lines n s).totalProcessed + s.movies.length + s.invalid =
        s.totalProcessed + (loadAux lines n s).movies.length +
          (loadAux lines n s).invalid := by
  induction lines with
  | nil => intro n s; rfl
  | cons line rest ih =>
      intro n s
      obtain ⟨M, p, i, w, c⟩ := s
      rw [loadAux_cons]
      by_cases hs : skippable line
      · rw [if_pos hs]
        exact ih (n + 1) _
      · rw [if_neg hs]
        cases hp : parseLine (strTrim line) with
        | error msg =>
            simp only
            have := ih (n + 1) ⟨M, p + 1, i + 1, w ++ [(n, msg)], c⟩
            simp only at this
            omega
        | ok m =>
            simp only
            by_cases hcap : MAX_MOVIES ≤ (M ++ [m]).length
            · rw [if_pos hcap]
              simp only [List.length_append, List.length_singleton]
              omega
            · rw [if_neg hcap]
              have := ih (n + 1) ⟨M ++ [m], p + 1, i, w, c⟩
              simp only [List.length_append, List.length_singleton] at this ⊢
              omega

/-- C4.  Loading a fresh session collects at most `MAX_MOVIES = 300`
records; the capacity warning is emitted exactly when the collection
reaches 300; and whenever the warning fired, appending further source
lines changes nothing at all — they are neither parsed nor counted
(otherwise loading continues through them). -/
theorem load_capped_at_max (lines extra : List String) :
    (loadAux lines 1 initState).movies.length ≤ MAX_MOVIES
  ∧ ((loadAux lines 1 initState).capWarning = true ↔
      (loadAux lines 1 initState).movies.length = MAX_MOVIES)
  ∧ loadAux (lines ++ extra) 1 initState =
      (if (loadAux lines 1 initState).capWarning then loadAux lines 1 initState
       else loadAux extra (1 + lines.length) (loadAux lines 1 initState)) := by
  obtain ⟨h1, h2⟩ := loadAux_cap lines 1 initState rfl (by decide)
  exact ⟨h1, h2, loadAux_append lines extra 1 initState rfl⟩

/-- C10.  After loading a fresh session, the attempted-lines counter equals
collected records plus rejected entries, for every source. -/
theorem load_counter_conservation (lines : List String) :
    (loadAux lines 1 initState).totalProcessed =
      (loadAux lines 1 initState).movies.length +
        (loadAux lines 1 initState).invalid := by
  have h := loadAux_counter lines 1 initState
  simp only [initState, List.length_nil] at h ⊢
  omega

/-- C6 counterexample.  A source that decodes one valid line and then
fails mid-read (undecodable bytes) collects — and retains — one record yet
returns failure: success is not equivalent to having collected at least
one record. -/
theorem load_success_counterexample :
    ¬ (((loadMovies (Source.truncated ["A|B|2000|5"] AccessFailure.undecodable)).2.1 = true) ↔
        (loadMovies (Source.truncated ["A|B|2000|5"] AccessFailure.undecodable)).1.movies ≠ []) := by
  decide

/-- C6 (amended).  Zero collected records always means failure, and success
always means at least one record was collected; for a fully readable source
success holds exactly when records were collected and no access error is
reported; an up-front access failure collects nothing, fails, and is
reported distinctly; a mid-read failure that the record cap did not preempt
fails and is reported distinctly while the records collected before it are
retained; and a mid-read failure beyond the record cap is never
encountered. -/
theorem load_success_amended (src : Source) :
    ((loadMovies src).2.1 = true → (loadMovies src).1.movies ≠ [])
  ∧ ((loadMovies src).1.movies = [] → (loadMovies src).2.1 = false)
  ∧ (∀ lines, src = Source.readable lines →
      (((loadMovies src).2.1 = true ↔ (loadMovies src).1.movies ≠ [])
        ∧ (loadMovies src).2.2 = none))
  ∧ (∀ e, src = Source.inaccessible e → loadMovies src = (initState, false, some e))
  ∧ (∀ lines e, src = Source.truncated lines e →
      ((loadAux lines 1 initState).capWarning = false →
        (loadMovies src).2.1 = false ∧ (loadMovies src).2.2 = some e
          ∧ (loadMovies src).1 = loadAux lines 1 initState)
      ∧ ((loadAux lines 1 initState).capWarning = true →
        loadMovies src = loadMovies (Source.readable lines))) := by
  cases src with
  | inaccessible e =>
      refine ⟨?_, ?_, ?_, ?_, ?_⟩
      · intro h
        exact absurd h (by simp [loadMovies])
      · intro _
        rfl
      · intro lines h
        exact Source.noConfusion h
      · intro e2 he
        injection he with he
        subst he
        rfl
      · intro lines e2 h
        exact Source.noConfusion h
  | readable lines =>
      refine ⟨?_, ?_, ?_, ?_, ?_⟩
      · simp only [loadMovies, decide_eq_true_eq]
        exact fun h => List.ne_nil_of_length_pos h
      · intro h
        simp only [loadMovies] at h ⊢
        simp [h]
      · intro lines2 h
        injection h with h
        subst h
        refine ⟨?_, rfl⟩
        simp only [loadMovies, decide_eq_true_eq]
        exact ⟨fun h => List.ne_nil_of_length_pos h,
          fun h => List.length_pos_of_ne_nil h⟩
      · intro e h
        exact Source.noConfusion h
      · intro lines2 e h
        exact Source.noConfusion h
  | truncated lines e =>
      refine ⟨?_, ?_, ?_, ?_, ?_⟩
      · by_cases hcap : (loadAux lines 1 initState).capWarning = true
        · simp only [loadMovies, if_pos hcap, decide_eq_true_eq]
          exact fun h => List.ne_nil_of_length_pos h
        · simp only [loadMovies, if_neg hcap]
          intro h
          exact absurd h (by simp)
      · intro h
        by_cases hcap : (loadAux lines 1 initState).capWarning = true
        · simp only [loadMovies, if_pos hcap] at h ⊢
          simp [h]
        · simp [loadMovies, if_neg hcap]
      · intro lines2 h
        exact Source.noConfusion h
      · intro e2 h
        exact Source.noConfusion h
      · intro lines2 e2 h
        injection h with h1 h2
        subst h1
        subst h2
        constructor
        · intro hcap
          simp [loadMovies, hcap]
        · intro hcap
          simp only [loadMovies, if_pos hcap]

/-- Witness for `load_success_amended`: the mid-read-failure case at a
concrete input — one record retained, failure returned, the error reported
distinctly. -/
theorem load_success_amended_witness :
    (loadMovies (Source.truncated ["A|B|2000|5"] AccessFailure.undecodable)).2.1 = false
  ∧ (loadMovies (Source.truncated ["A|B|2000|5"] AccessFailure.undecodable)).2.2 =
      some AccessFailure.undecodable
  ∧ (loadMovies (Source.truncated ["A|B|2000|5"] AccessFailure.undecodable)).1 =
      loadAux ["A|B|2000|5"] 1 initState :=
  ((load_success_amended
      (Source.truncated ["A|B|2000|5"] AccessFailure.undecodable)).2.2.2.2
    ["A|B|2000|5"] AccessFailure.undecodable rfl).1 (by decide)

/-- C7.  A malformed line never changes which records are collected (the
collection equals that of the same source without the line), and — when the
loader actually reaches it — it accounts for exactly one rejected entry,
exactly one attempted line, and a warning carrying its line number and the
reason of the parse failure. -/
theorem bad_line_isolated (l1 l2 : List String) (bad msg : String)
    (hskip : skippable bad = false)
    (herr : parseLine (strTrim bad) = Except.error msg) :
    (loadAux (l1 ++ bad :: l2) 1 initState).movies =
      (loadAux (l1 ++ l2) 1 initState).movies
  ∧ ((loadAux l1 1 initState).capWarning = false →
        (loadAux (l1 ++ bad :: l2) 1 initState).invalid =
          (loadAux (l1 ++ l2) 1 initState).invalid + 1
      ∧ (loadAux (l1 ++ bad :: l2) 1 initState).totalProcessed =
          (loadAux (l1 ++ l2) 1 initState).totalProcessed + 1
      ∧ (1 + l1.length, msg) ∈ (loadAux (l1 ++ bad :: l2) 1 initState).warnings) := by
  rw [loadAux_append l1 (bad :: l2) 1 initState rfl,
    loadAux_append l1 l2 1 initState rfl]
  generalize hS : loadAux l1 1 initState = S
  obtain ⟨M, p, i, w, c⟩ := S
  by_cases hcap : c = true
  · subst hcap
    refine ⟨rfl, ?_⟩
    intro h
    simp only at h
    exact absurd h (by simp)
  · have hc : c = false := by
      cases c
      · rfl
      · exact absurd rfl hcap
    subst hc
    simp only [if_neg (by simp : ¬ (false = true))]
    rw [loadAux_cons, if_neg (by rw [hskip]; simp : ¬ skippable bad = true), herr]
    simp only
    rw [loadAux_shift l2 (1 + l1.length + 1) M false (p + 1) (i + 1)
        (w ++ [(1 + l1.length, msg)]),
      loadAux_shift l2 (1 + l1.length) M false p i w]
    obtain ⟨e1, e2, e3, _⟩ :=
      loadAux_lineNum l2 (1 + l1.length + 1) (1 + l1.length) ⟨M, 0, 0, [], false⟩
    refine ⟨e1, ?_⟩
    intro _
    refine ⟨by simp only; omega, by simp only; omega, ?_⟩
    simp

/-- Witness for `bad_line_isolated`: a two-field line among (here: zero)
valid lines is rejected, counted once, warned about with its line number
and reason, and no record is affected. -/
theorem bad_line_isolated_witness :
    (loadAux ["Bad|Data"] 1 initState).movies = (loadAux [] 1 initState).movies
  ∧ (loadAux ["Bad|Data"] 1 initState).invalid =
      (loadAux [] 1 initState).invalid + 1
  ∧ (loadAux ["Bad|Data"] 1 initState).totalProcessed =
      (loadAux [] 1 initState).totalProcessed + 1
  ∧ (1, "Expected 4 fields separated by |, got 2") ∈
      (loadAux ["Bad|Data"] 1 initState).warnings := by
  have h := bad_line_isolated [] [] "Bad|Data"
    "Expected 4 fields separated by |, got 2" (by decide) (by decide)
  exact ⟨h.1, (h.2 rfl).1, (h.2 rfl).2.1, (h.2 rfl).2.2⟩

/-- C8 counterexample.  With one record, the file text produced by export is
not identical to the console-rendered text: export prepends a two-line
report header. -/
theorem export_not_identical_counterexample :
    exportLines (fun _ => "x") (fun _ => "x") "/" [⟨"A", "B", 2000, 5⟩] ≠
      analyzeLines (fun _ => "x") (fun _ => "x") [⟨"A", "B", 2000, 5⟩] 10 := by
  intro h
  have hlen := congrArg List.length h
  simp only [exportLines, List.length_cons] at hlen
  omega

/-- C8 (amended).  For every record collection (and any float formatting),
the text export writes is exactly the two-line report header followed by
the console-equivalent text of the same render routine at its default top
count — the analysis body is captured from the shared routine, not
reimplemented. -/
theorem export_is_header_plus_render (fmtR fmt2 : ℚ → String) (cwd : String)
    (movies : List Movie) :
    exportLines fmtR fmt2 cwd movies =
      ("Movie Analysis Report - Generated on " ++ cwd) :: eqBar 60 ::
        analyzeLines fmtR fmt2 movies 10
  ∧ (exportLines fmtR fmt2 cwd movies).drop 2 =
      analyzeLines fmtR fmt2 movies 10 :=
  ⟨rfl, rfl⟩

/-- C9.  Export never writes the session state: the state after export (to
any destination) is the state before, every recomputable aggregation is
unchanged, and an unwritable destination yields failure with nothing
written. -/
theorem export_failure_frame (s : LoadState) (w : Bool) (cwd : String)
    (fmtR fmt2 : ℚ → String) :
    (exportAnalysis s w cwd fmtR fmt2).1 = s
  ∧ (w = false → (exportAnalysis s w cwd fmtR fmt2).2.1 = false
      ∧ (exportAnalysis s w cwd fmtR fmt2).2.2 = none)
  ∧ sortMovies (exportAnalysis s w cwd fmtR fmt2).1.movies = sortMovies s.movies
  ∧ topDirectors (exportAnalysis s w cwd fmtR fmt2).1.movies = topDirectors s.movies
  ∧ sortedDecades (exportAnalysis s w cwd fmtR fmt2).1.movies = sortedDecades s.movies := by
  cases w <;> simp [exportAnalysis]

/-- Witness for `export_failure_frame`: an unwritable destination fails and
leaves a session untouched. -/
theorem export_failure_frame_witness :
    (exportAnalysis initState false "/" (fun _ => "x") (fun _ => "x")).1 = initState
  ∧ (exportAnalysis initState false "/" (fun _ => "x") (fun _ => "x")).2.1 = false
  ∧ (exportAnalysis initState false "/" (fun _ => "x") (fun _ => "x")).2.2 = none := by
  have h := export_failure_frame initState false "/" (fun _ => "x") (fun _ => "x")
  exact ⟨h.1, (h.2.1 rfl).1, (h.2.1 rfl).2⟩

theorem entryForDecade_updateDecade (acc : List (String × DecadeStats))
    (m : Movie) (d : String) :
    entryForDecade (updateDecade acc m) d =
      if getDecade m = d then some (decadeBump m (entryForDecade acc d))
      else entryForDecade acc d := by
  induction acc with
  | nil =>
      by_cases h : getDecade m = d <;> simp [updateDecade, entryForDecade, decadeBump, h]
  | cons e rest ih =>
      obtain ⟨d0, s0⟩ := e
      by_cases h0 : d0 = getDecade m
      · by_cases h : d0 = d
        · have hmd : getDecade m = d := h0 ▸ h
          simp [updateDecade, entryForDecade, h0, h, hmd, decadeBump]
        · have hmd : ¬ getDecade m = d := fun hx => h (h0.trans hx)
          simp [updateDecade, entryForDecade, h0, h, hmd]
      · by_cases h : d0 = d
        · have hmd : ¬ getDecade m = d := fun hx => h0 (h.trans hx.symm)
          have hdm : ¬ d = getDecade m := fun hx => hmd hx.symm
          simp [updateDecade, entryForDecade, h0, h, hmd, hdm]
        · simp [updateDecade, entryForDecade, h0, h, ih]

/-- Running the decade-grouping loop adds, at every label, exactly the
count of the records in that decade. -/
theorem decadeStats_count (l : List Movie) :
    ∀ (acc : List (String × DecadeStats)) (d : String),
      decadeCount (entryForDecade (l.foldl updateDecade acc) d)
        = decadeCount (entryForDecade acc d) +
            (l.filter (fun m => decide (getDecade m = d))).length := by
  induction l with
  | nil => intro acc d; simp
  | cons m t ih =>
      intro acc d
      have hfold : (m :: t).foldl updateDecade acc = t.foldl updateDecade (updateDecade acc m) := rfl
      rw [hfold, ih (updateDecade acc m) d, entryForDecade_updateDecade]
      by_cases h : getDecade m = d
      · rw [if_pos h]
        cases ho : entryForDecade acc d <;>
          simp [decadeCount, decadeBump, List.filter_cons, h, ho] <;> omega
      · rw [if_neg h]
        simp [List.filter_cons, h]

theorem keys_updateDecade (acc : List (String × DecadeStats)) (m : Movie) :
    (updateDecade acc m).map Prod.fst =
      if getDecade m ∈ acc.map Prod.fst then acc.map Prod.fst
      else acc.map Prod.fst ++ [getDecade m] := by
  induction acc with
  | nil => simp [updateDecade]
  | cons e rest ih =>
      obtain ⟨d0, s0⟩ := e
      by_cases h0 : d0 = getDecade m
      · subst h0; simp [updateDecade]
      · have hne : ¬ getDecade m = d0 := fun hx => h0 hx.symm
        by_cases hmem : getDecade m ∈ rest.map Prod.fst
        · simp [updateDecade, h0, ih, hmem, hne]
        · simp [updateDecade, h0, ih, hmem, hne]

theorem nodup_keys_foldl_updateDecade (l : List Movie) :
    ∀ acc : List (String × DecadeStats), (acc.map Prod.fst).Nodup →
      ((l.foldl updateDecade acc).map Prod.fst).Nodup := by
  induction l with
  | nil => intro acc h; exact h
  | cons m t ih =>
      intro acc h
      apply ih
      rw [keys_updateDecade]
      by_cases hmem : getDecade m ∈ acc.map Prod.fst
      · rw [if_pos hmem]; exact h
      · rw [if_neg hmem]
        refine List.Nodup.append h (List.nodup_singleton _) ?_
        intro a ha hb
        rw [List.mem_singleton] at hb
        exact hmem (hb ▸ ha)

theorem entryForDecade_of_mem :
    ∀ (acc : List (String × DecadeStats)) (d : String) (s : DecadeStats),
      (acc.map Prod.fst).Nodup → (d, s) ∈ acc → entryForDecade acc d = some s := by
  intro acc
  induction acc with
  | nil => intro d s _ h; simp at h
  | cons e rest ih =>
      intro d s hnd hmem
      obtain ⟨d0, s0⟩ := e
      rcases List.mem_cons.mp hmem with heq | hrest
      · injection heq with h1 h2
        simp only [entryForDecade]
        rw [if_pos h1.symm, h2]
      · simp only [List.map_cons, List.nodup_cons] at hnd
        by_cases h : d0 = d
        · exfalso
          apply hnd.1
          rw [h]
          exact List.mem_map_of_mem Prod.fst hrest
        · simp only [entryForDecade, if_neg h]
          exact ih d s hnd.2 hrest

theorem sum_counts_updateDecade (acc : List (String × DecadeStats)) (m : Movie) :
    ((updateDecade acc m).map (fun e => e.2.count)).sum =
      (acc.map (fun e => e.2.count)).sum + 1 := by
  induction acc with
  | nil => simp [updateDecade]
  | cons e rest ih =>
      obtain ⟨d0, s0⟩ := e
      by_cases h0 : d0 = getDecade m
      · simp [updateDecade, h0]
        omega
      · simp [updateDecade, h0, ih]
        omega

/-- Every record lands in exactly one decade bucket: the bucket counts sum
to the record count. -/
theorem decadeStats_sum (l : List Movie) :
    ∀ acc : List (String × DecadeStats),
      ((l.foldl updateDecade acc).map (fun e => e.2.count)).sum =
        (acc.map (fun e => e.2.count)).sum + l.length := by
  induction l with
  | nil => intro acc; simp
  | cons m t ih =>
      intro acc
      have hfold : (m :: t).foldl updateDecade acc = t.foldl updateDecade (updateDecade acc m) := rfl
      rw [hfold, ih (updateDecade acc m), sum_counts_updateDecade]
      simp only [List.length_cons]
      omega

set_option maxRecDepth 8000 in
theorem mul10_mem_decadeVals :
    ∀ k : Nat, k < 204 → 180 ≤ k → k * 10 ∈ decadeVals := by decide

/-- Rendering an integer cast of a natural number gives the same digits. -/
theorem toString_intCast (n : ℕ) : toString ((n : ℤ)) = toString n := rfl

/-- For a valid year the decade start is the cast of a natural number from
the finite list of reachable decade starts. -/
theorem yearDecade_mem (y : ℤ) (h1 : 1800 ≤ y) (h2 : y ≤ 2030) :
    yearDecade y = ((y.toNat / 10 * 10 : ℕ) : ℤ) ∧
      (y.toNat / 10 * 10) ∈ decadeVals := by
  have hy : y = (y.toNat : ℤ) := (Int.toNat_of_nonneg (by omega)).symm
  constructor
  · conv_lhs => rw [hy]
    rw [yearDecade, show ((10 : ℤ)) = ((10 : ℕ) : ℤ) from rfl, ← Int.ofNat_fdiv]
    omega
  · have h203 : y.toNat / 10 < 204 := by omega
    have h180 : 180 ≤ y.toNat / 10 := by omega
    exact mul10_mem_decadeVals _ h203 h180

set_option maxRecDepth 8000 in
/-- On the reachable decade labels, the ascending label order used by the
report coincides with the numeric decade order. -/
theorem decadeVals_label_mono :
    ∀ a ∈ decadeVals, ∀ b ∈ decadeVals, a ≠ b →
      charsLe (toString a ++ "s").data (toString b ++ "s").data = true →
      a < b := by decide

/-- C5.  Each record is assigned the single decade bucket
`floor(year / 10) * 10` rendered as a label with an `s` suffix (1994 maps to
"1990s"); the bucket counts sum to the total record count (every record in
exactly one bucket, whose count is exactly its records); and for valid
years the output order is strictly ascending in the numeric decade. -/
theorem decades_partition_sorted (l : List Movie)
    (hy : ∀ m ∈ l, 1800 ≤ m.year ∧ m.year ≤ 2030) :
    (∀ m : Movie, getDecade m = toString (yearDecade m.year) ++ "s")
  ∧ getDecade ⟨"Pulp Fiction", "Quentin Tarantino", 1994, 9⟩ = "1990s"
  ∧ ((sortedDecades l).map (fun e => e.2.count)).sum = l.length
  ∧ (∀ e ∈ sortedDecades l,
      e.2.count = (l.filter (fun m => decide (getDecade m = e.1))).length)
  ∧ List.Pairwise
      (fun a b => ∀ ma ∈ l, ∀ mb ∈ l,
        getDecade ma = a.1 → getDecade mb = b.1 →
          yearDecade ma.year < yearDecade mb.year)
      (sortedDecades l) := by
  have hperm := List.perm_insertionSort decadeLe (decadeStats l)
  have hnodupKeys : ((decadeStats l).map Prod.fst).Nodup :=
    nodup_keys_foldl_updateDecade l [] (by simp)
  refine ⟨fun m => rfl, by decide, ?_, ?_, ?_⟩
  · have h1 : ((sortedDecades l).map (fun e => e.2.count)).sum =
        ((decadeStats l).map (fun e => e.2.count)).sum := by
      unfold sortedDecades
      exact (hperm.map (fun e => e.2.count)).sum_eq
    rw [h1]
    have h2 := decadeStats_sum l []
    simpa [decadeStats] using h2
  · intro e he
    obtain ⟨d, s⟩ := e
    have h2 : (d, s) ∈ decadeStats l := by
      rw [sortedDecades] at he
      exact (List.mem_insertionSort decadeLe).mp he
    have hentry : entryForDecade (decadeStats l) d = some s :=
      entryForDecade_of_mem _ _ _ hnodupKeys h2
    have h3 := decadeStats_count l [] d
    rw [decadeStats] at hentry
    rw [hentry] at h3
    simpa [decadeCount, entryForDecade] using h3
  · have hsorted : List.Pairwise decadeLe (sortedDecades l) :=
      List.sorted_insertionSort decadeLe (decadeStats l)
    have hnodupSorted : ((sortedDecades l).map Prod.fst).Nodup := by
      unfold sortedDecades
      exact ((hperm.map Prod.fst).nodup_iff).mpr hnodupKeys
    have hpairNe : List.Pairwise (fun a b : String × DecadeStats => a.1 ≠ b.1)
        (sortedDecades l) := List.pairwise_map.mp hnodupSorted
    refine List.Pairwise.imp ?_ (hsorted.and hpairNe)
    intro a b hab
    obtain ⟨hle, hne⟩ := hab
    intro ma hma mb hmb hga hgb
    obtain ⟨hya1, hya2⟩ := hy ma hma
    obtain ⟨hyb1, hyb2⟩ := hy mb hmb
    obtain ⟨hda, hmema⟩ := yearDecade_mem ma.year hya1 hya2
    obtain ⟨hdb, hmemb⟩ := yearDecade_mem mb.year hyb1 hyb2
    have hga2 : a.1 = toString (ma.year.toNat / 10 * 10) ++ "s" := by
      rw [← hga]
      unfold getDecade
      rw [hda, toString_intCast]
    have hgb2 : b.1 = toString (mb.year.toNat / 10 * 10) ++ "s" := by
      rw [← hgb]
      unfold getDecade
      rw [hdb, toString_intCast]
    have hne2 : (ma.year.toNat / 10 * 10) ≠ (mb.year.toNat / 10 * 10) := by
      intro hEq
      apply hne
      rw [hga2, hgb2, hEq]
    have hle2 : charsLe (toString (ma.year.toNat / 10 * 10) ++ "s").data
        (toString (mb.year.toNat / 10 * 10) ++ "s").data = true := by
      have hx := hle
      unfold decadeLe at hx
      rw [hga2, hgb2] at hx
      exact hx
    have hlt := decadeVals_label_mono _ hmema _ hmemb hne2 hle2
    rw [hda, hdb]
    exact_mod_cast hlt

/-- Witness for `decades_partition_sorted` at a concrete two-record input
with valid years in distinct decades. -/
theorem decades_partition_sorted_witness :
    getDecade ⟨"Pulp Fiction", "Quentin Tarantino", 1994, 9⟩ = "1990s"
  ∧ ((sortedDecades [⟨"A", "B", 1994, 5⟩, ⟨"C", "D", 2005, 6⟩]).map
      (fun e => e.2.count)).sum = 2 :=
  have h := decades_partition_sorted [⟨"A", "B", 1994, 5⟩, ⟨"C", "D", 2005, 6⟩]
    (by decide)
  ⟨h.2.1, h.2.2.1⟩
